import Mathlib

/-!
Verification of the time-windowed trigger-insertion engine of
`SpinUpFanBeforeBridge.py` (Cura post-processing script).

The script's `execute` method is shallowly embedded below.  Conventions:

* Python floats are modelled as exact rationals (`ℚ`); all arithmetic the
  claims exercise is exact in binary floating point as well.
* A G-code line is a `Line := List Char`; a layer string is modelled as the
  list of its lines (the `layer.split("\n")` / `"\n".join` glue at the
  boundary of `execute` is pure string plumbing and is represented by
  passing the document pre-split).
* `math.hypot` is modelled over `ℚ` by an integer-square-root based
  function `hypot`: it is exact whenever the squared norm is a perfect
  square (true of every concrete input evaluated here) and the proofs
  below depend on no other property of it.
* Python's `float(...)` literal parser is modelled for finite decimal
  and exponent literals (`pyFloat`); `inf`/`nan` and underscore
  separators are outside the model.
* Python's stable `list.sort(key=..., reverse=True)` is modelled by
  `List.insertionSort` with the reversed lexicographic relation `insLE`,
  which is a stable sort producing the identical list.
-/

abbrev Line := List Char

/-- Does `hay` start with `needle`?  (Helper for Python's `in` operator.) -/
def leadsWith : List Char → List Char → Bool
  | [], _ => true
  | _ :: _, [] => false
  | c :: cs, d :: ds => c = d && leadsWith cs ds

/-- Python's substring containment `needle in hay`. -/
def listContains : List Char → List Char → Bool
  | [], needle => leadsWith needle []
  | d :: t, needle => leadsWith needle (d :: t) || listContains t needle

/-- Numeric value of a digit string (most significant digit first). -/
def digitsVal (s : List Char) : ℕ :=
  s.foldl (fun n c => 10 * n + (c.toNat - 48)) 0

/-- Mantissa of a Python float literal: digits with at most one decimal
point, at least one digit overall (`"1."`, `".5"`, `"10"` are all valid). -/
def parseMantissa (s : List Char) : Option ℚ :=
  match s.splitOn '.' with
  | [a] =>
    if !a.isEmpty && a.all Char.isDigit then some (digitsVal a : ℚ) else none
  | [a, b] =>
    if (a.all Char.isDigit && b.all Char.isDigit) && (!a.isEmpty || !b.isEmpty) then
      some ((digitsVal a : ℚ) + (digitsVal b : ℚ) / (10 : ℚ) ^ b.length)
    else none
  | _ => none

/-- Exponent of a Python float literal: optional sign then digits. -/
def parseExp (s : List Char) : Option ℤ :=
  match s with
  | '+' :: r => if !r.isEmpty && r.all Char.isDigit then some (digitsVal r : ℤ) else none
  | '-' :: r => if !r.isEmpty && r.all Char.isDigit then some (-(digitsVal r : ℤ)) else none
  | r => if !r.isEmpty && r.all Char.isDigit then some (digitsVal r : ℤ) else none

/-- Unsigned Python float literal: mantissa with optional `e`/`E` exponent. -/
def pyFloatCore (s : List Char) : Option ℚ :=
  let i := s.findIdx (fun c => c == 'e' || c == 'E')
  if i = s.length then parseMantissa s
  else do
    let m ← parseMantissa (s.take i)
    let e ← parseExp (s.drop (i + 1))
    some (m * (10 : ℚ) ^ e)

/-- Python's `float(str)` on finite decimal literals, `none` on parse failure
(Python raises `ValueError`, which `_get_value` converts to `None`). -/
def pyFloat (s : List Char) : Option ℚ :=
  match s with
  | '+' :: r => pyFloatCore r
  | '-' :: r => (pyFloatCore r).map (fun q => -q)
  | r => pyFloatCore r

/-- The maximal substring following the first occurrence of `key`, up to the
next space, `';'`, or end of line — the characters `_get_value` passes to
`float`. -/
def valueChunk (line : Line) (key : Char) : Line :=
  (line.drop (line.indexOf key + 1)).takeWhile (fun c => !(c == ' ' || c == ';'))

/-- `SpinUpFanBeforeBridge._get_value`: tolerant G-code parameter parsing.
The source takes the key as a string but is only ever called with the
single-letter keys `X`, `Y`, `Z`, `F`; a `Char` key captures exactly those
calls (`line.find(key) + 1` is the index right after the key). -/
def get_value (line : Line) (key : Char) : Option ℚ :=
  if key ∈ line then pyFloat (valueChunk line key) else none

/-- Integer square root by downward linear search (helper for `hypot`). -/
def natSqrtGo (n : ℕ) : ℕ → ℕ
  | 0 => 0
  | k + 1 => if (k + 1) * (k + 1) ≤ n then k + 1 else natSqrtGo n k

/-- Integer square root: the largest `k ≤ n` with `k * k ≤ n`. -/
def natSqrt (n : ℕ) : ℕ := natSqrtGo n n

/-- Rational square root model: exact on perfect squares. -/
def ratSqrt (q : ℚ) : ℚ := (natSqrt q.num.toNat : ℚ) / (natSqrt q.den : ℚ)

/-- Model of `math.hypot(a, b, c)`. -/
def hypot (a b c : ℚ) : ℚ := ratSqrt (a * a + b * b + c * c)

/-- The mutable scan state of `execute`: extruder coordinates, modal
feedrate, accumulated print time, positioning mode, the sliding history
window (deque of `(timestamp, layer_index, line_index)`), and the pending
insertions (`(layer_index, line_index, text)`). -/
structure ScanState where
  current_x : ℚ
  current_y : ℚ
  current_z : ℚ
  current_f : ℚ
  total_time : ℚ
  is_relative : Bool
  history : List (ℚ × ℕ × ℕ)
  insertions : List (ℕ × ℕ × Line)
deriving DecidableEq

/-- Initial scan state of `execute` (defaults from the source). -/
def initState : ScanState :=
  { current_x := 0, current_y := 0, current_z := 0, current_f := 3000
    total_time := 0, is_relative := false, history := [], insertions := [] }

/-- Backward scan over the reversed history: `nxt` is the entry scanned just
before (i.e. the next more recent one); on the first entry with
`timestamp ≤ target` the source inserts at `history[i+1]`, which is `nxt`. -/
def backScanGo (target : ℚ) (nxt : ℚ × ℕ × ℕ) : List (ℚ × ℕ × ℕ) → Option (ℕ × ℕ)
  | [] => none
  | e :: rest => if e.1 ≤ target then some (nxt.2.1, nxt.2.2) else backScanGo target e rest

/-- Backward scan entry point (applied to `history.reverse`): if the most
recent entry already satisfies `timestamp ≤ target` then `i + 1 = len` is out
of range and the source falls back to that entry's own position. -/
def backScan (target : ℚ) : List (ℚ × ℕ × ℕ) → Option (ℕ × ℕ)
  | [] => none
  | e :: rest => if e.1 ≤ target then some (e.2.1, e.2.2) else backScanGo target e rest

/-- The trigger-resolution logic of `execute` (source lines 146–174): `none`
exactly when the history window is empty, otherwise the boundary checks
followed by the backward scan with its not-found fallback. -/
def resolvePos (history : List (ℚ × ℕ × ℕ)) (target : ℚ) (layer_idx line_idx : ℕ) :
    Option (ℕ × ℕ) :=
  match history with
  | [] => none
  | h0 :: rest =>
    if target ≤ h0.1 then some (h0.2.1, h0.2.2)
    else if ((h0 :: rest).getLast (List.cons_ne_nil h0 rest)).1 ≤ target then
      some (layer_idx, line_idx)
    else
      match backScan target (h0 :: rest).reverse with
      | some p => some p
      | none => some (h0.2.1, h0.2.2)

/-- Is the line a motion command (`"G1" in line or "G0" in line`)? -/
def isMove (line : Line) : Bool :=
  listContains line ("G1".toList) || listContains line ("G0".toList)

/-- Does the line carry the trigger marker (`";BRIDGE" in line`)? -/
def isTrigger (line : Line) : Bool := listContains line (";BRIDGE".toList)

/-- Modal positioning-mode update (source lines 135–138): `G90` clears and
`G91` sets `is_relative`, checked in that order. -/
def modalStep (s : ScanState) (line : Line) : ScanState :=
  let r1 := if listContains line ("G90".toList) then false else s.is_relative
  let r2 := if listContains line ("G91".toList) then true else r1
  { s with is_relative := r2 }

/-- Trigger handling (source lines 141–174): on a `;BRIDGE` line with a
non-empty window, append one pending insertion at the resolved position. -/
def triggerStep (lead_time : ℚ) (fan_cmd : Line) (s : ScanState)
    (layer_idx line_idx : ℕ) (line : Line) : ScanState :=
  if isTrigger line then
    match resolvePos s.history (s.total_time - lead_time) layer_idx line_idx with
    | some p => { s with insertions := s.insertions ++ [(p.1, p.2, fan_cmd)] }
    | none => s
  else s

/-- The feedrate in effect for a move line (modal update if `F` present). -/
def moveFeed (s : ScanState) (line : Line) : ℚ :=
  match get_value line 'F' with
  | some v => v
  | none => s.current_f

/-- Distance and new coordinates of a move (source lines 192–208):
returns `(dist, new_x, new_y, new_z)`. -/
def moveCalc (s : ScanState) (line : Line) : ℚ × ℚ × ℚ × ℚ :=
  let x := get_value line 'X'
  let y := get_value line 'Y'
  let z := get_value line 'Z'
  if s.is_relative then
    let dx := match x with | some v => v | none => 0
    let dy := match y with | some v => v | none => 0
    let dz := match z with | some v => v | none => 0
    (hypot dx dy dz, s.current_x + dx, s.current_y + dy, s.current_z + dz)
  else
    let new_x := match x with | some v => v | none => s.current_x
    let new_y := match y with | some v => v | none => s.current_y
    let new_z := match z with | some v => v | none => s.current_z
    (hypot (new_x - s.current_x) (new_y - s.current_y) (new_z - s.current_z),
      new_x, new_y, new_z)

/-- Motion simulation (source lines 177–213): push the history sample with
the pre-move timestamp, update feedrate and coordinates, and accumulate the
move time when both distance and feedrate are positive. -/
def motionStep (s : ScanState) (layer_idx line_idx : ℕ) (line : Line) : ScanState :=
  if isMove line then
    let f' := moveFeed s line
    let c := moveCalc s line
    let tt := if 0 < c.1 ∧ 0 < f' then s.total_time + c.1 / f' * 60 else s.total_time
    { s with history := s.history ++ [(s.total_time, layer_idx, line_idx)]
             current_x := c.2.1, current_y := c.2.2.1, current_z := c.2.2.2
             current_f := f', total_time := tt }
  else s

/-- Window pruning (source lines 218–221): drop history entries older than
`total_time - 2 * lead_time` from the head. -/
def pruneStep (lead_time : ℚ) (s : ScanState) : ScanState :=
  let cutoff := s.total_time - lead_time * 2
  { s with history := s.history.dropWhile (fun e => decide (e.1 < cutoff)) }

/-- One iteration of the inner loop of `execute`, in source order:
modal update, trigger resolution, motion simulation, pruning. -/
def stepLine (lead_time : ℚ) (fan_cmd : Line) (s : ScanState)
    (layer_idx line_idx : ℕ) (line : Line) : ScanState :=
  pruneStep lead_time
    (motionStep (triggerStep lead_time fan_cmd (modalStep s line) layer_idx line_idx line)
      layer_idx line_idx line)

/-- The inner loop of `execute` over the lines of one layer
(`line_idx` is the enumeration counter). -/
def scanLines (lead_time : ℚ) (fan_cmd : Line) (layer_idx : ℕ) :
    ScanState → ℕ → List Line → ScanState
  | s, _, [] => s
  | s, line_idx, l :: ls =>
    scanLines lead_time fan_cmd layer_idx
      (stepLine lead_time fan_cmd s layer_idx line_idx l) (line_idx + 1) ls

/-- The outer loop of `execute` over the layers
(`layer_idx` is the enumeration counter). -/
def scanLayers (lead_time : ℚ) (fan_cmd : Line) :
    ScanState → ℕ → List (List Line) → ScanState
  | s, _, [] => s
  | s, layer_idx, lay :: rest =>
    scanLayers lead_time fan_cmd
      (scanLines lead_time fan_cmd layer_idx s 0 lay) (layer_idx + 1) rest

/-- Python's `int(...)` on a rational value: truncation toward zero. -/
def ratTrunc (q : ℚ) : ℤ := if 0 ≤ q then ⌊q⌋ else -⌊-q⌋

/-- `fan_pwm = int((target_fan_speed / 100.0) * 255.0)` (source line 104). -/
def fan_pwm (target_fan_speed : ℤ) : ℤ :=
  ratTrunc ((target_fan_speed : ℚ) / 100 * 255)

/-- Decimal fraction digits of `r / d` (fuel-bounded long division). -/
def fracDigits : ℕ → ℕ → ℕ → List Char
  | 0, _, _ => []
  | _ + 1, 0, _ => []
  | fuel + 1, r, d => Nat.digitChar (r * 10 / d) :: fracDigits fuel (r * 10 % d) d

/-- Python's `str` of a float, modelled for terminating decimals (e.g.
`1.0`, `1.5`); only used to render `lead_time` inside the comment of the
inserted command. -/
def ratRepr (q : ℚ) : List Char :=
  let n := q.num.natAbs
  let d := q.den
  let fr := if n % d = 0 then ['0'] else fracDigits 30 (n % d) d
  (if q.num < 0 then ['-'] else []) ++ (Nat.repr (n / d)).toList ++ '.' :: fr

/-- `fan_cmd = f"M106 S{fan_pwm} ; SpinUpFanBeforeBridge (Lead: {lead_time}s)"`
(source line 105). -/
def fan_cmd (lead_time : ℚ) (pwm : ℤ) : Line :=
  "M106 S".toList ++ (toString pwm).toList ++
    " ; SpinUpFanBeforeBridge (Lead: ".toList ++ ratRepr lead_time ++ "s)".toList

/-- Python's `list.insert(n, a)`: insert before index `n`, clamping to an
append when `n ≥ length` (which the recorded positions never exercise). -/
def pyInsert (xs : List α) (n : ℕ) (a : α) : List α :=
  xs.take n ++ a :: xs.drop n

/-- The layer at index `l` (`layers_lines[l]`; out-of-range reads, which the
recorded positions never exercise, default to `[]`). -/
def layerAt (ls : List (List Line)) (l : ℕ) : List Line := ls.getD l []

/-- The apply pass of `execute` (source lines 228–229): insert every pending
command into its layer, in the given order. -/
def applyAll (layers : List (List Line)) (ins : List (ℕ × ℕ × Line)) :
    List (List Line) :=
  ins.foldl (fun ls p => ls.set p.1 (pyInsert (layerAt ls p.1) p.2.1 p.2.2)) layers

/-- The descending order used by
`insertions.sort(key=lambda x: (x[0], x[1]), reverse=True)`:
`a` precedes `b` when `b`'s `(layer, line)` key is lexicographically at most
`a`'s.  A stable sort by this relation is exactly Python's stable
reverse-sort. -/
def insLE (a b : ℕ × ℕ × Line) : Prop :=
  b.1 < a.1 ∨ (b.1 = a.1 ∧ b.2.1 ≤ a.2.1)

instance : DecidableRel insLE := fun a b => by unfold insLE; infer_instance

instance : IsTotal (ℕ × ℕ × Line) insLE := ⟨fun a b => by unfold insLE; omega⟩

instance : IsTrans (ℕ × ℕ × Line) insLE := ⟨fun a b c => by unfold insLE; omega⟩

/-- The inserted command text built by `execute` from its two settings. -/
def theFanCmd (lead_time : ℚ) (target_fan_speed : ℤ) : Line :=
  fan_cmd lead_time (fan_pwm target_fan_speed)

/-- The pending insertions produced by the scan phase of `execute`. -/
def docInsertions (lead_time : ℚ) (target_fan_speed : ℤ)
    (data : List (List Line)) : List (ℕ × ℕ × Line) :=
  (scanLayers lead_time (theFanCmd lead_time target_fan_speed) initState 0 data).insertions

/-- `SpinUpFanBeforeBridge.execute` on a pre-split document: scan, sort the
pending insertions by `(layer, line)` descending (stably), apply them. -/
def execute (lead_time : ℚ) (target_fan_speed : ℤ)
    (data : List (List Line)) : List (List Line) :=
  applyAll data (List.insertionSort insLE (docInsertions lead_time target_fan_speed data))

/-- The three-case resolution policy as the specification words it: head
fallback when the target predates the window, the trigger's own position
when the target is at or past the tail, and otherwise the position of the
first (oldest) sample whose timestamp strictly exceeds the target. -/
def specResolve (history : List (ℚ × ℕ × ℕ)) (target : ℚ) (layer_idx line_idx : ℕ) :
    Option (ℕ × ℕ) :=
  match history with
  | [] => none
  | h0 :: rest =>
    if target ≤ h0.1 then some (h0.2.1, h0.2.2)
    else if ((h0 :: rest).getLast (List.cons_ne_nil h0 rest)).1 ≤ target then
      some (layer_idx, line_idx)
    else
      match (h0 :: rest).find? (fun e => decide (target < e.1)) with
      | some e => some (e.2.1, e.2.2)
      | none => some (h0.2.1, h0.2.2)

/-- Application of one layer's insertions, oldest-first, each before the
index it names (the per-layer restriction of the apply pass). -/
def applyLayer (xs : List Line) (ps : List (ℕ × Line)) : List Line :=
  ps.foldl (fun ys q => pyInsert ys q.1 q.2) xs

/-- The intended meaning of applying index-descending insertions: each
command is placed immediately before the line that originally sat at its
recorded index, later (smaller-index) insertions touching only the prefix. -/
def specMerge (xs : List Line) : List (ℕ × Line) → List Line
  | [] => xs
  | (i, c) :: rest => specMerge (xs.take i) rest ++ c :: xs.drop i

/-- The insertions recorded for layer `l`, in order, as `(line, text)`. -/
def insFor (l : ℕ) (ins : List (ℕ × ℕ × Line)) : List (ℕ × Line) :=
  ins.filterMap (fun p => if p.1 = l then some (p.2.1, p.2.2) else none)

/-- Count, along the scan of one layer, of trigger lines encountered while
the history window is non-empty (the lines for which an insertion is
recorded). -/
def triggeredLines (lead_time : ℚ) (fan_cmd : Line) (layer_idx : ℕ) :
    ScanState → ℕ → List Line → ℕ
  | _, _, [] => 0
  | s, line_idx, l :: ls =>
    (if isTrigger l = true ∧ s.history ≠ [] then 1 else 0) +
      triggeredLines lead_time fan_cmd layer_idx
        (stepLine lead_time fan_cmd s layer_idx line_idx l) (line_idx + 1) ls

/-- Count, along the whole scan, of trigger lines encountered while the
history window is non-empty. -/
def triggeredLayers (lead_time : ℚ) (fan_cmd : Line) :
    ScanState → ℕ → List (List Line) → ℕ
  | _, _, [] => 0
  | s, layer_idx, lay :: rest =>
    triggeredLines lead_time fan_cmd layer_idx s 0 lay +
      triggeredLayers lead_time fan_cmd
        (scanLines lead_time fan_cmd layer_idx s 0 lay) (layer_idx + 1) rest

/-- Total number of lines of a document. -/
def totalLines (data : List (List Line)) : ℕ := (data.map List.length).sum

/-- Number of lines of the document containing the trigger marker. -/
def triggerLineCount (data : List (List Line)) : ℕ :=
  (data.map (fun lay => lay.countP (fun l => isTrigger l))).sum

/-- The history-window invariant maintained by the scan: timestamps are
non-decreasing along the window and never exceed the accumulated time. -/
def HistInv (s : ScanState) : Prop :=
  s.history.Pairwise (fun a b => a.1 ≤ b.1) ∧ ∀ e ∈ s.history, e.1 ≤ s.total_time

/-- A `(layer, line)` pair naming an existing line of the document. -/
def PosOK (data : List (List Line)) (p : ℕ × ℕ) : Prop :=
  p.1 < data.length ∧ p.2 < (layerAt data p.1).length

/-- Position validity of the scan state: every history sample and every
pending insertion names an existing line of the document. -/
def StInv (data : List (List Line)) (s : ScanState) : Prop :=
  (∀ e ∈ s.history, PosOK data (e.2.1, e.2.2)) ∧
    ∀ q ∈ s.insertions, PosOK data (q.1, q.2.1)

/-! ### Bookkeeping lemmas for the individual stages of `stepLine` -/

theorem modalStep_total_time (s : ScanState) (line : Line) :
    (modalStep s line).total_time = s.total_time := rfl

theorem modalStep_history (s : ScanState) (line : Line) :
    (modalStep s line).history = s.history := rfl

theorem modalStep_insertions (s : ScanState) (line : Line) :
    (modalStep s line).insertions = s.insertions := rfl

theorem modalStep_current_x (s : ScanState) (line : Line) :
    (modalStep s line).current_x = s.current_x := rfl

theorem modalStep_current_f (s : ScanState) (line : Line) :
    (modalStep s line).current_f = s.current_f := rfl

theorem triggerStep_total_time (lead_time : ℚ) (fc : Line) (s : ScanState)
    (li ni : ℕ) (line : Line) :
    (triggerStep lead_time fc s li ni line).total_time = s.total_time := by
  unfold triggerStep
  split
  · split <;> rfl
  · rfl

theorem triggerStep_history (lead_time : ℚ) (fc : Line) (s : ScanState)
    (li ni : ℕ) (line : Line) :
    (triggerStep lead_time fc s li ni line).history = s.history := by
  unfold triggerStep
  split
  · split <;> rfl
  · rfl

theorem triggerStep_motion_fields (lead_time : ℚ) (fc : Line) (s : ScanState)
    (li ni : ℕ) (line : Line) :
    (triggerStep lead_time fc s li ni line).current_x = s.current_x ∧
      (triggerStep lead_time fc s li ni line).current_y = s.current_y ∧
      (triggerStep lead_time fc s li ni line).current_z = s.current_z ∧
      (triggerStep lead_time fc s li ni line).current_f = s.current_f ∧
      (triggerStep lead_time fc s li ni line).is_relative = s.is_relative := by
  unfold triggerStep
  split
  · split <;> exact ⟨rfl, rfl, rfl, rfl, rfl⟩
  · exact ⟨rfl, rfl, rfl, rfl, rfl⟩

theorem triggerStep_insertions (lead_time : ℚ) (fc : Line) (s : ScanState)
    (li ni : ℕ) (line : Line) :
    (triggerStep lead_time fc s li ni line).insertions =
      s.insertions ++
        (if isTrigger line then
          (match resolvePos s.history (s.total_time - lead_time) li ni with
            | some p => [(p.1, p.2, fc)]
            | none => [])
          else []) := by
  unfold triggerStep
  split
  · split <;> rename_i hres <;> simp [hres]
  · simp

theorem motionStep_insertions (s : ScanState) (li ni : ℕ) (line : Line) :
    (motionStep s li ni line).insertions = s.insertions := by
  unfold motionStep
  split <;> rfl

theorem motionStep_total_time_of_move (s : ScanState) (li ni : ℕ) (line : Line)
    (h : isMove line = true) :
    (motionStep s li ni line).total_time =
      if 0 < (moveCalc s line).1 ∧ 0 < moveFeed s line then
        s.total_time + (moveCalc s line).1 / moveFeed s line * 60
      else s.total_time := by
  unfold motionStep
  simp [h]

theorem motionStep_total_time_of_not_move (s : ScanState) (li ni : ℕ) (line : Line)
    (h : isMove line = false) :
    (motionStep s li ni line).total_time = s.total_time := by
  unfold motionStep
  simp [h]

theorem motionStep_history_of_move (s : ScanState) (li ni : ℕ) (line : Line)
    (h : isMove line = true) :
    (motionStep s li ni line).history = s.history ++ [(s.total_time, li, ni)] := by
  unfold motionStep
  simp [h]

theorem motionStep_history_of_not_move (s : ScanState) (li ni : ℕ) (line : Line)
    (h : isMove line = false) :
    (motionStep s li ni line).history = s.history := by
  unfold motionStep
  simp [h]

theorem motionStep_total_time_le (s : ScanState) (li ni : ℕ) (line : Line) :
    s.total_time ≤ (motionStep s li ni line).total_time := by
  unfold motionStep
  split
  · dsimp only
    split
    · rename_i hd
      have h60 : (0 : ℚ) ≤ 60 := by norm_num
      have : (0 : ℚ) ≤ (moveCalc s line).1 / moveFeed s line * 60 :=
        mul_nonneg (div_nonneg hd.1.le hd.2.le) h60
      linarith
    · exact le_refl _
  · exact le_refl _

theorem pruneStep_total_time (lead_time : ℚ) (s : ScanState) :
    (pruneStep lead_time s).total_time = s.total_time := rfl

theorem pruneStep_insertions (lead_time : ℚ) (s : ScanState) :
    (pruneStep lead_time s).insertions = s.insertions := rfl

theorem pruneStep_history (lead_time : ℚ) (s : ScanState) :
    (pruneStep lead_time s).history =
      s.history.dropWhile (fun e => decide (e.1 < s.total_time - lead_time * 2)) := rfl

theorem stepLine_total_time_le (lead_time : ℚ) (fc : Line) (s : ScanState)
    (li ni : ℕ) (line : Line) :
    s.total_time ≤ (stepLine lead_time fc s li ni line).total_time := by
  unfold stepLine
  rw [pruneStep_total_time]
  calc s.total_time = (triggerStep lead_time fc (modalStep s line) li ni line).total_time := by
        rw [triggerStep_total_time, modalStep_total_time]
    _ ≤ _ := motionStep_total_time_le _ _ _ _

theorem stepLine_insertions_eq (lead_time : ℚ) (fc : Line) (s : ScanState)
    (li ni : ℕ) (line : Line) :
    (stepLine lead_time fc s li ni line).insertions =
      s.insertions ++
        (if isTrigger line then
          (match resolvePos s.history (s.total_time - lead_time) li ni with
            | some p => [(p.1, p.2, fc)]
            | none => [])
          else []) := by
  unfold stepLine
  rw [pruneStep_insertions, motionStep_insertions, triggerStep_insertions,
    modalStep_insertions, modalStep_history, modalStep_total_time]

/-! ### Scan-level time monotonicity -/

theorem scanLines_total_time_le (lead_time : ℚ) (fc : Line) (li : ℕ)
    (lines : List Line) :
    ∀ (i : ℕ) (s : ScanState),
      s.total_time ≤ (scanLines lead_time fc li s i lines).total_time := by
  induction lines with
  | nil => intro i s; exact le_refl _
  | cons l ls ih =>
    intro i s
    exact le_trans (stepLine_total_time_le lead_time fc s li i l) (ih (i + 1) _)

theorem scanLayers_total_time_le (lead_time : ℚ) (fc : Line)
    (doc : List (List Line)) :
    ∀ (k : ℕ) (s : ScanState),
      s.total_time ≤ (scanLayers lead_time fc s k doc).total_time := by
  induction doc with
  | nil => intro k s; exact le_refl _
  | cons lay rest ih =>
    intro k s
    exact le_trans (scanLines_total_time_le lead_time fc k lay 0 s) (ih (k + 1) _)

/-! ### Insertion-recording structure -/

theorem resolvePos_cons_isSome (h0 : ℚ × ℕ × ℕ) (rest : List (ℚ × ℕ × ℕ))
    (t : ℚ) (li ni : ℕ) : (resolvePos (h0 :: rest) t li ni).isSome = true := by
  unfold resolvePos
  split
  · rename_i heq
    cases heq
  · split
    · rfl
    · split
      · rfl
      · split <;> rfl

theorem resolvePos_none_iff (h : List (ℚ × ℕ × ℕ)) (t : ℚ) (li ni : ℕ) :
    resolvePos h t li ni = none ↔ h = [] := by
  cases h with
  | nil => simp [resolvePos]
  | cons h0 rest =>
    constructor
    · intro hn
      have := resolvePos_cons_isSome h0 rest t li ni
      rw [hn] at this
      cases this
    · intro hn
      cases hn

theorem stepLine_insertions_length (lead_time : ℚ) (fc : Line) (s : ScanState)
    (li ni : ℕ) (line : Line) :
    (stepLine lead_time fc s li ni line).insertions.length =
      s.insertions.length +
        (if isTrigger line = true ∧ s.history ≠ [] then 1 else 0) := by
  rw [stepLine_insertions_eq]
  rcases ht : isTrigger line with _ | _
  · simp [ht]
  · rcases hh : s.history with _ | ⟨h0, rest⟩
    · simp [ht, hh, resolvePos]
    · rcases hr : resolvePos (h0 :: rest) (s.total_time - lead_time) li ni with _ | p
      · have := resolvePos_cons_isSome h0 rest (s.total_time - lead_time) li ni
        rw [hr] at this
        cases this
      · simp [ht, hh, hr]

theorem scanLines_insertions_length (lead_time : ℚ) (fc : Line) (li : ℕ)
    (lines : List Line) :
    ∀ (i : ℕ) (s : ScanState),
      (scanLines lead_time fc li s i lines).insertions.length =
        s.insertions.length + triggeredLines lead_time fc li s i lines := by
  induction lines with
  | nil => intro i s; rfl
  | cons l ls ih =>
    intro i s
    show (scanLines lead_time fc li (stepLine lead_time fc s li i l) (i + 1) ls).insertions.length
      = s.insertions.length + triggeredLines lead_time fc li s i (l :: ls)
    rw [ih (i + 1) (stepLine lead_time fc s li i l), stepLine_insertions_length]
    show _ = s.insertions.length +
      ((if isTrigger l = true ∧ s.history ≠ [] then 1 else 0) +
        triggeredLines lead_time fc li (stepLine lead_time fc s li i l) (i + 1) ls)
    omega

theorem scanLayers_insertions_length (lead_time : ℚ) (fc : Line)
    (doc : List (List Line)) :
    ∀ (k : ℕ) (s : ScanState),
      (scanLayers lead_time fc s k doc).insertions.length =
        s.insertions.length + triggeredLayers lead_time fc s k doc := by
  induction doc with
  | nil => intro k s; rfl
  | cons lay rest ih =>
    intro k s
    show (scanLayers lead_time fc (scanLines lead_time fc k s 0 lay) (k + 1) rest).insertions.length
      = s.insertions.length + triggeredLayers lead_time fc s k (lay :: rest)
    rw [ih (k + 1) _, scanLines_insertions_length]
    show _ = s.insertions.length +
      (triggeredLines lead_time fc k s 0 lay +
        triggeredLayers lead_time fc (scanLines lead_time fc k s 0 lay) (k + 1) rest)
    omega

/-! ### The history-window invariant -/

theorem modalStep_HistInv (s : ScanState) (line : Line) (h : HistInv s) :
    HistInv (modalStep s line) := h

theorem triggerStep_HistInv (lead_time : ℚ) (fc : Line) (s : ScanState)
    (li ni : ℕ) (line : Line) (h : HistInv s) :
    HistInv (triggerStep lead_time fc s li ni line) := by
  unfold HistInv
  rw [triggerStep_history, triggerStep_total_time]
  exact h

theorem motionStep_HistInv (s : ScanState) (li ni : ℕ) (line : Line)
    (h : HistInv s) : HistInv (motionStep s li ni line) := by
  rcases hm : isMove line with _ | _
  · unfold HistInv
    rw [motionStep_history_of_not_move s li ni line hm,
      motionStep_total_time_of_not_move s li ni line hm]
    exact h
  · constructor
    · rw [motionStep_history_of_move s li ni line hm]
      rw [List.pairwise_append]
      refine ⟨h.1, List.pairwise_singleton _ _, ?_⟩
      intro a ha b hb
      rw [List.mem_singleton] at hb
      subst hb
      exact h.2 a ha
    · intro e he
      rw [motionStep_history_of_move s li ni line hm] at he
      have hle := motionStep_total_time_le s li ni line
      rcases List.mem_append.mp he with h1 | h1
      · exact le_trans (h.2 e h1) hle
      · rw [List.mem_singleton] at h1
        subst h1
        exact hle

theorem pruneStep_HistInv (lead_time : ℚ) (s : ScanState) (h : HistInv s) :
    HistInv (pruneStep lead_time s) := by
  unfold HistInv
  rw [pruneStep_history, pruneStep_total_time]
  exact ⟨List.Pairwise.sublist (List.dropWhile_sublist _) h.1,
    fun e he => h.2 e ((List.dropWhile_sublist _).subset he)⟩

theorem stepLine_HistInv (lead_time : ℚ) (fc : Line) (s : ScanState)
    (li ni : ℕ) (line : Line) (h : HistInv s) :
    HistInv (stepLine lead_time fc s li ni line) :=
  pruneStep_HistInv _ _
    (motionStep_HistInv _ _ _ _
      (triggerStep_HistInv _ _ _ _ _ _ (modalStep_HistInv s line h)))

theorem scanLines_HistInv (lead_time : ℚ) (fc : Line) (li : ℕ)
    (lines : List Line) :
    ∀ (i : ℕ) (s : ScanState), HistInv s →
      HistInv (scanLines lead_time fc li s i lines) := by
  induction lines with
  | nil => intro i s h; exact h
  | cons l ls ih =>
    intro i s h
    exact ih (i + 1) _ (stepLine_HistInv lead_time fc s li i l h)

theorem scanLayers_HistInv (lead_time : ℚ) (fc : Line)
    (doc : List (List Line)) :
    ∀ (k : ℕ) (s : ScanState), HistInv s →
      HistInv (scanLayers lead_time fc s k doc) := by
  induction doc with
  | nil => intro k s h; exact h
  | cons lay rest ih =>
    intro k s h
    exact ih (k + 1) _ (scanLines_HistInv lead_time fc k lay 0 s h)

/-! ### Resolver equivalence: the backward scan matches the three-case policy -/

theorem backScanGo_cons (t : ℚ) (nxt e : ℚ × ℕ × ℕ) (rest : List (ℚ × ℕ × ℕ)) :
    backScanGo t nxt (e :: rest) =
      if e.1 ≤ t then some (nxt.2.1, nxt.2.2) else backScanGo t e rest := rfl

theorem backScan_cons (t : ℚ) (e : ℚ × ℕ × ℕ) (rest : List (ℚ × ℕ × ℕ)) :
    backScan t (e :: rest) =
      if e.1 ≤ t then some (e.2.1, e.2.2) else backScanGo t e rest := rfl

theorem dropWhile_cons_false (p : α → Bool) (l : List α) (a : α) (l' : List α)
    (h : l.dropWhile p = a :: l') : p a = false := by
  induction l with
  | nil => cases h
  | cons b u ih =>
    rw [List.dropWhile_cons] at h
    by_cases hb : p b = true
    · rw [if_pos hb] at h
      exact ih h
    · rw [if_neg hb] at h
      cases h
      simpa using hb

theorem backScanGo_head_hit (t : ℚ) (nxt y : ℚ × ℕ × ℕ) (ys : List (ℚ × ℕ × ℕ))
    (h : y.1 ≤ t) : backScanGo t nxt (y :: ys) = some (nxt.2.1, nxt.2.2) := by
  rw [backScanGo_cons, if_pos h]

theorem backScanGo_all_fail (t : ℚ) (xs : List (ℚ × ℕ × ℕ)) :
    ∀ (nxt : ℚ × ℕ × ℕ) (ys : List (ℚ × ℕ × ℕ)),
      (∀ e ∈ xs, ¬e.1 ≤ t) →
      backScanGo t nxt (xs ++ ys) = backScanGo t (xs.getLastD nxt) ys := by
  induction xs with
  | nil => intro nxt ys _; rfl
  | cons x xs ih =>
    intro nxt ys h
    rw [List.cons_append, backScanGo_cons, if_neg (h x (List.mem_cons_self x xs)),
      ih x ys (fun e he => h e (List.mem_cons_of_mem x he)), List.getLastD_cons]

theorem find?_append_of_none (p : α → Bool) (P S : List α)
    (h : ∀ e ∈ P, ¬p e = true) : (P ++ S).find? p = S.find? p := by
  induction P with
  | nil => rfl
  | cons a P ih =>
    rw [List.cons_append, List.find?_cons_of_neg _ (h a (List.mem_cons_self a P))]
    exact ih (fun e he => h e (List.mem_cons_of_mem a he))

theorem backScanGo_into_retained (t : ℚ) (s1 p0 : ℚ × ℕ × ℕ)
    (P' : List (ℚ × ℕ × ℕ)) (hP : ∀ e ∈ p0 :: P', e.1 ≤ t) :
    backScanGo t s1 (P'.reverse ++ [p0]) = some (s1.2.1, s1.2.2) := by
  cases hY : P'.reverse ++ [p0] with
  | nil => exact absurd hY (List.append_ne_nil_of_right_ne_nil _ (by simp))
  | cons y ys =>
    have hy : y ∈ P'.reverse ++ [p0] := by
      rw [hY]
      exact List.mem_cons_self y ys
    have hyP : y ∈ p0 :: P' := by
      rcases List.mem_append.mp hy with h1 | h1
      · exact List.mem_cons_of_mem _ (List.mem_reverse.mp h1)
      · rw [List.mem_singleton] at h1
        subst h1
        exact List.mem_cons_self _ _
    exact backScanGo_head_hit t s1 y ys (hP y hyP)

theorem backScan_middle (t : ℚ) (P S' : List (ℚ × ℕ × ℕ)) (s1 : ℚ × ℕ × ℕ)
    (hPne : P ≠ []) (hP : ∀ e ∈ P, e.1 ≤ t) (hs1 : ¬s1.1 ≤ t)
    (hS' : ∀ e ∈ S', ¬e.1 ≤ t) :
    backScan t (P ++ s1 :: S').reverse = some (s1.2.1, s1.2.2) := by
  obtain ⟨p0, P', rfl⟩ := List.exists_cons_of_ne_nil hPne
  rw [List.reverse_append, List.reverse_cons, List.reverse_cons]
  cases hA : S'.reverse with
  | nil =>
    rw [List.nil_append, List.singleton_append, backScan_cons, if_neg hs1]
    exact backScanGo_into_retained t s1 p0 P' hP
  | cons a A' =>
    have ha : ¬a.1 ≤ t := hS' a (by
      rw [← List.mem_reverse, hA]
      exact List.mem_cons_self a A')
    have shape : ((a :: A') ++ [s1]) ++ (P'.reverse ++ [p0]) =
        a :: ((A' ++ [s1]) ++ (P'.reverse ++ [p0])) := by simp
    have hfail : ∀ e ∈ A' ++ [s1], ¬e.1 ≤ t := by
      intro e he
      rcases List.mem_append.mp he with h1 | h1
      · exact hS' e (by
          rw [← List.mem_reverse, hA]
          exact List.mem_cons_of_mem a h1)
      · rw [List.mem_singleton] at h1
        subst h1
        exact hs1
    rw [shape, backScan_cons, if_neg ha,
      backScanGo_all_fail t (A' ++ [s1]) a (P'.reverse ++ [p0]) hfail,
      List.getLastD_concat]
    exact backScanGo_into_retained t s1 p0 P' hP

theorem resolvePos_eq_specResolve (h : List (ℚ × ℕ × ℕ)) (t : ℚ) (li ni : ℕ)
    (hp : h.Pairwise (fun a b => a.1 ≤ b.1)) :
    resolvePos h t li ni = specResolve h t li ni := by
  cases h with
  | nil => rfl
  | cons h0 rest =>
    show (if t ≤ h0.1 then some (h0.2.1, h0.2.2)
      else if ((h0 :: rest).getLast (List.cons_ne_nil h0 rest)).1 ≤ t then
        some (li, ni)
      else match backScan t (h0 :: rest).reverse with
        | some p => some p
        | none => some (h0.2.1, h0.2.2)) =
      (if t ≤ h0.1 then some (h0.2.1, h0.2.2)
      else if ((h0 :: rest).getLast (List.cons_ne_nil h0 rest)).1 ≤ t then
        some (li, ni)
      else match (h0 :: rest).find? (fun e => decide (t < e.1)) with
        | some e => some (e.2.1, e.2.2)
        | none => some (h0.2.1, h0.2.2))
    by_cases h1 : t ≤ h0.1
    · rw [if_pos h1, if_pos h1]
    · rw [if_neg h1, if_neg h1]
      by_cases h2 : ((h0 :: rest).getLast (List.cons_ne_nil h0 rest)).1 ≤ t
      · rw [if_pos h2, if_pos h2]
      · rw [if_neg h2, if_neg h2]
        have hh0 : h0.1 ≤ t := le_of_lt (not_le.mp h1)
        have hPS : (h0 :: rest).takeWhile (fun e => decide (e.1 ≤ t)) ++
            (h0 :: rest).dropWhile (fun e => decide (e.1 ≤ t)) = h0 :: rest :=
          List.takeWhile_append_dropWhile _ _
        have hPne : (h0 :: rest).takeWhile (fun e => decide (e.1 ≤ t)) ≠ [] := by
          rw [List.takeWhile_cons_of_pos (by simpa using hh0)]
          exact List.cons_ne_nil _ _
        have hSne : (h0 :: rest).dropWhile (fun e => decide (e.1 ≤ t)) ≠ [] := by
          intro hS0
          rw [List.dropWhile_eq_nil_iff] at hS0
          exact h2 (by simpa using hS0 _ (List.getLast_mem (List.cons_ne_nil h0 rest)))
        obtain ⟨s1, S', hS⟩ := List.exists_cons_of_ne_nil hSne
        have hs1 : ¬s1.1 ≤ t := by
          have := dropWhile_cons_false (fun e => decide (e.1 ≤ t)) (h0 :: rest) s1 S' hS
          simpa using this
        have hSsorted : (s1 :: S').Pairwise (fun a b => a.1 ≤ b.1) := by
          rw [← hS]
          exact List.Pairwise.sublist (List.dropWhile_sublist _) hp
        have hS'fail : ∀ e ∈ S', ¬e.1 ≤ t := by
          intro e he
          have h12 := (List.pairwise_cons.mp hSsorted).1 e he
          exact fun hc => hs1 (le_trans h12 hc)
        have hPle : ∀ e ∈ (h0 :: rest).takeWhile (fun e => decide (e.1 ≤ t)), e.1 ≤ t := by
          intro e he
          simpa using List.mem_takeWhile_imp he
        have hbs : backScan t (h0 :: rest).reverse = some (s1.2.1, s1.2.2) := by
          conv in (h0 :: rest).reverse => rw [← hPS, hS]
          exact backScan_middle t _ S' s1 hPne hPle hs1 hS'fail
        have hfd : (h0 :: rest).find? (fun e => decide (t < e.1)) = some s1 := by
          conv in List.find? _ _ => rw [← hPS, hS]
          rw [find?_append_of_none _ _ _
            (fun e he => by simpa using not_lt.mpr (hPle e he))]
          rw [List.find?_cons_of_pos _ (by simpa using not_le.mp hs1)]
        rw [hbs, hfd]

/-! ### Position validity of recorded samples and insertions -/

theorem backScanGo_mem (t : ℚ) (l : List (ℚ × ℕ × ℕ)) :
    ∀ (nxt : ℚ × ℕ × ℕ) (q : ℕ × ℕ), backScanGo t nxt l = some q →
      q = (nxt.2.1, nxt.2.2) ∨ ∃ e ∈ l, q = (e.2.1, e.2.2) := by
  induction l with
  | nil => intro nxt q h; cases h
  | cons e rest ih =>
    intro nxt q h
    rw [backScanGo_cons] at h
    by_cases he : e.1 ≤ t
    · rw [if_pos he] at h
      cases h
      exact Or.inl rfl
    · rw [if_neg he] at h
      rcases ih e q h with h1 | ⟨e', he', h1⟩
      · exact Or.inr ⟨e, List.mem_cons_self e rest, h1⟩
      · exact Or.inr ⟨e', List.mem_cons_of_mem e he', h1⟩

theorem backScan_mem (t : ℚ) (l : List (ℚ × ℕ × ℕ)) (q : ℕ × ℕ)
    (h : backScan t l = some q) : ∃ e ∈ l, q = (e.2.1, e.2.2) := by
  cases l with
  | nil => cases h
  | cons e rest =>
    rw [backScan_cons] at h
    by_cases he : e.1 ≤ t
    · rw [if_pos he] at h
      cases h
      exact ⟨e, List.mem_cons_self e rest, rfl⟩
    · rw [if_neg he] at h
      rcases backScanGo_mem t rest e q h with h1 | ⟨e', he', h1⟩
      · exact ⟨e, List.mem_cons_self e rest, h1⟩
      · exact ⟨e', List.mem_cons_of_mem e he', h1⟩

theorem resolvePos_mem (h : List (ℚ × ℕ × ℕ)) (t : ℚ) (li ni : ℕ) (p : ℕ × ℕ)
    (hr : resolvePos h t li ni = some p) :
    (∃ e ∈ h, p = (e.2.1, e.2.2)) ∨ p = (li, ni) := by
  cases h with
  | nil => cases hr
  | cons h0 rest =>
    rw [show resolvePos (h0 :: rest) t li ni =
      (if t ≤ h0.1 then some (h0.2.1, h0.2.2)
      else if ((h0 :: rest).getLast (List.cons_ne_nil h0 rest)).1 ≤ t then
        some (li, ni)
      else match backScan t (h0 :: rest).reverse with
        | some q => some q
        | none => some (h0.2.1, h0.2.2)) from rfl] at hr
    by_cases h1 : t ≤ h0.1
    · rw [if_pos h1] at hr
      cases hr
      exact Or.inl ⟨h0, List.mem_cons_self h0 rest, rfl⟩
    · rw [if_neg h1] at hr
      by_cases h2 : ((h0 :: rest).getLast (List.cons_ne_nil h0 rest)).1 ≤ t
      · rw [if_pos h2] at hr
        cases hr
        exact Or.inr rfl
      · rw [if_neg h2] at hr
        cases hb : backScan t (h0 :: rest).reverse with
        | some q =>
          rw [hb] at hr
          cases hr
          obtain ⟨e, he, hq⟩ := backScan_mem t _ p hb
          exact Or.inl ⟨e, List.mem_reverse.mp he, hq⟩
        | none =>
          rw [hb] at hr
          cases hr
          exact Or.inl ⟨h0, List.mem_cons_self h0 rest, rfl⟩

theorem modalStep_StInv (data : List (List Line)) (s : ScanState) (line : Line)
    (hs : StInv data s) : StInv data (modalStep s line) := hs

theorem triggerStep_StInv (data : List (List Line)) (lead_time : ℚ) (fc : Line)
    (s : ScanState) (li ni : ℕ) (line : Line)
    (hs : StInv data s) (hpos : PosOK data (li, ni)) :
    StInv data (triggerStep lead_time fc s li ni line) := by
  unfold triggerStep
  split
  · split
    · rename_i p hr
      refine ⟨hs.1, ?_⟩
      intro q hq
      rcases List.mem_append.mp hq with h1 | h1
      · exact hs.2 q h1
      · rw [List.mem_singleton] at h1
        subst h1
        rcases resolvePos_mem _ _ _ _ _ hr with ⟨e, he, hpe⟩ | hpe
        · subst hpe
          exact hs.1 e he
        · subst hpe
          exact hpos
    · exact hs
  · exact hs

theorem motionStep_StInv (data : List (List Line)) (s : ScanState)
    (li ni : ℕ) (line : Line) (hs : StInv data s) (hpos : PosOK data (li, ni)) :
    StInv data (motionStep s li ni line) := by
  rcases hm : isMove line with _ | _
  · unfold StInv
    rw [motionStep_history_of_not_move s li ni line hm, motionStep_insertions]
    exact hs
  · unfold StInv
    rw [motionStep_history_of_move s li ni line hm, motionStep_insertions]
    refine ⟨?_, hs.2⟩
    intro e he
    rcases List.mem_append.mp he with h1 | h1
    · exact hs.1 e h1
    · rw [List.mem_singleton] at h1
      subst h1
      exact hpos

theorem pruneStep_StInv (data : List (List Line)) (lead_time : ℚ) (s : ScanState)
    (hs : StInv data s) : StInv data (pruneStep lead_time s) := by
  unfold StInv
  rw [pruneStep_history, pruneStep_insertions]
  exact ⟨fun e he => hs.1 e ((List.dropWhile_sublist _).subset he), hs.2⟩

theorem stepLine_StInv (data : List (List Line)) (lead_time : ℚ) (fc : Line)
    (s : ScanState) (li ni : ℕ) (line : Line)
    (hs : StInv data s) (hpos : PosOK data (li, ni)) :
    StInv data (stepLine lead_time fc s li ni line) :=
  pruneStep_StInv data lead_time _
    (motionStep_StInv data _ li ni line
      (triggerStep_StInv data lead_time fc _ li ni line
        (modalStep_StInv data s line hs) hpos) hpos)

theorem scanLines_StInv (data : List (List Line)) (lead_time : ℚ) (fc : Line)
    (li : ℕ) (lines : List Line) :
    ∀ (i : ℕ) (s : ScanState), StInv data s → li < data.length →
      i + lines.length ≤ (layerAt data li).length →
      StInv data (scanLines lead_time fc li s i lines) := by
  induction lines with
  | nil => intro i s hs _ _; exact hs
  | cons l ls ih =>
    intro i s hs hli hlen
    have hlen' : i < (layerAt data li).length := by
      simp only [List.length_cons] at hlen
      omega
    apply ih (i + 1) _ (stepLine_StInv data lead_time fc s li i l hs ⟨hli, hlen'⟩) hli
    simp only [List.length_cons] at hlen
    omega

theorem scanLayers_StInv_aux (data : List (List Line)) (lead_time : ℚ) (fc : Line) :
    ∀ (d : List (List Line)) (k : ℕ) (s : ScanState), d = data.drop k →
      StInv data s → StInv data (scanLayers lead_time fc s k d) := by
  intro d
  induction d with
  | nil => intro k s _ hs; exact hs
  | cons lay rest ih =>
    intro k s hd hs
    show StInv data (scanLayers lead_time fc (scanLines lead_time fc k s 0 lay) (k + 1) rest)
    have hk : k < data.length := by
      by_contra hk
      rw [List.drop_eq_nil_of_le (le_of_not_lt hk)] at hd
      cases hd
    have hlay : layerAt data k = lay := by
      have h1 : (data.drop k).head? = some lay := by
        rw [← hd]
        rfl
      rw [List.head?_drop] at h1
      unfold layerAt
      rw [List.getD_eq_getElem?_getD, h1]
      rfl
    have hrest : rest = data.drop (k + 1) := by
      have h1 : (data.drop k).tail = rest := by
        rw [← hd]
        rfl
      rw [List.tail_drop] at h1
      exact h1.symm
    refine ih (k + 1) _ hrest (scanLines_StInv data lead_time fc k lay 0 s hs hk ?_)
    rw [hlay]
    omega

theorem initState_StInv (data : List (List Line)) : StInv data initState :=
  ⟨fun e he => absurd he (List.not_mem_nil e), fun q hq => absurd hq (List.not_mem_nil q)⟩

theorem scan_StInv (data : List (List Line)) (lead_time : ℚ) (fc : Line) :
    StInv data (scanLayers lead_time fc initState 0 data) :=
  scanLayers_StInv_aux data lead_time fc data 0 initState (by rw [List.drop_zero])
    (initState_StInv data)

/-! ### The apply pass: descending insertion preserves recorded positions -/

theorem pyInsert_length (xs : List α) (n : ℕ) (a : α) :
    (pyInsert xs n a).length = xs.length + 1 := by
  unfold pyInsert
  rw [List.length_append, List.length_cons, List.length_take, List.length_drop]
  omega

theorem pyInsert_append_left (A B : List α) (n : ℕ) (a : α) (h : n ≤ A.length) :
    pyInsert (A ++ B) n a = pyInsert A n a ++ B := by
  unfold pyInsert
  rw [List.take_append_of_le_length h, List.drop_append_of_le_length h]
  simp

theorem applyLayer_cons (xs : List Line) (q : ℕ × Line) (ps : List (ℕ × Line)) :
    applyLayer xs (q :: ps) = applyLayer (pyInsert xs q.1 q.2) ps := rfl

theorem specMerge_cons (xs : List Line) (q : ℕ × Line) (ps : List (ℕ × Line)) :
    specMerge xs (q :: ps) = specMerge (xs.take q.1) ps ++ q.2 :: xs.drop q.1 := by
  obtain ⟨i, c⟩ := q
  rfl

theorem applyLayer_append_left (ps : List (ℕ × Line)) :
    ∀ (A B : List Line), (∀ q ∈ ps, q.1 ≤ A.length) →
      applyLayer (A ++ B) ps = applyLayer A ps ++ B := by
  induction ps with
  | nil => intro A B _; rfl
  | cons q ps ih =>
    intro A B h
    rw [applyLayer_cons, applyLayer_cons,
      pyInsert_append_left A B q.1 q.2 (h q (List.mem_cons_self q ps))]
    apply ih
    intro q' hq'
    rw [pyInsert_length]
    exact Nat.le_succ_of_le (h q' (List.mem_cons_of_mem q hq'))

theorem applyLayer_eq_specMerge (ps : List (ℕ × Line)) :
    ∀ (xs : List Line), ps.Pairwise (fun a b => b.1 ≤ a.1) →
      (∀ q ∈ ps, q.1 ≤ xs.length) → applyLayer xs ps = specMerge xs ps := by
  induction ps with
  | nil => intro xs _ _; rfl
  | cons q ps ih =>
    intro xs hsort hb
    have hq : q.1 ≤ xs.length := hb q (List.mem_cons_self q ps)
    have htk : (xs.take q.1).length = q.1 := by
      rw [List.length_take]
      omega
    have hrest : ∀ q' ∈ ps, q'.1 ≤ q.1 := (List.pairwise_cons.mp hsort).1
    rw [applyLayer_cons, specMerge_cons]
    have hsplit : pyInsert xs q.1 q.2 = xs.take q.1 ++ q.2 :: xs.drop q.1 := rfl
    rw [hsplit,
      applyLayer_append_left ps (xs.take q.1) (q.2 :: xs.drop q.1)
        (fun q' hq' => by
          rw [htk]
          exact hrest q' hq'),
      ih (xs.take q.1) (List.pairwise_cons.mp hsort).2
        (fun q' hq' => by
          rw [htk]
          exact hrest q' hq')]

theorem specMerge_sublist (ps : List (ℕ × Line)) :
    ∀ (xs : List Line), xs.Sublist (specMerge xs ps) := by
  induction ps with
  | nil => intro xs; exact List.Sublist.refl xs
  | cons q ps ih =>
    intro xs
    rw [specMerge_cons]
    conv_lhs => rw [← List.take_append_drop q.1 xs]
    exact List.Sublist.append (ih _) (List.sublist_cons_self q.2 _)

theorem layerAt_set_self (ls : List (List Line)) (l : ℕ) (v : List Line)
    (h : l < ls.length) : layerAt (ls.set l v) l = v := by
  unfold layerAt
  rw [List.getD_eq_getElem?_getD, List.getElem?_set_self h]
  rfl

theorem layerAt_set_ne (ls : List (List Line)) (l m : ℕ) (v : List Line)
    (h : l ≠ m) : layerAt (ls.set l v) m = layerAt ls m := by
  unfold layerAt
  rw [List.getD_eq_getElem?_getD, List.getD_eq_getElem?_getD, List.getElem?_set_ne h]

theorem layerAt_of_le (ls : List (List Line)) (m : ℕ) (h : ls.length ≤ m) :
    layerAt ls m = [] := by
  unfold layerAt
  rw [List.getD_eq_getElem?_getD, List.getElem?_eq_none h]
  rfl

theorem applyAll_cons (ls : List (List Line)) (p : ℕ × ℕ × Line)
    (ins : List (ℕ × ℕ × Line)) :
    applyAll ls (p :: ins) =
      applyAll (ls.set p.1 (pyInsert (layerAt ls p.1) p.2.1 p.2.2)) ins := rfl

theorem applyAll_length (ins : List (ℕ × ℕ × Line)) :
    ∀ (ls : List (List Line)), (applyAll ls ins).length = ls.length := by
  induction ins with
  | nil => intro ls; rfl
  | cons p ins ih =>
    intro ls
    rw [applyAll_cons, ih, List.length_set]

theorem insFor_cons (m : ℕ) (p : ℕ × ℕ × Line) (ins : List (ℕ × ℕ × Line)) :
    insFor m (p :: ins) =
      if p.1 = m then (p.2.1, p.2.2) :: insFor m ins else insFor m ins := by
  unfold insFor
  rw [List.filterMap_cons]
  by_cases hpm : p.1 = m
  · simp [hpm]
  · simp [hpm]

theorem applyAll_prj (ins : List (ℕ × ℕ × Line)) :
    ∀ (ls : List (List Line)) (m : ℕ), (∀ p ∈ ins, p.1 < ls.length) →
      layerAt (applyAll ls ins) m = applyLayer (layerAt ls m) (insFor m ins) := by
  induction ins with
  | nil => intro ls m _; rfl
  | cons p ins ih =>
    intro ls m h
    have hlen : ∀ p' ∈ ins, p'.1 < (ls.set p.1 (pyInsert (layerAt ls p.1) p.2.1 p.2.2)).length := by
      intro p' hp'
      rw [List.length_set]
      exact h p' (List.mem_cons_of_mem p hp')
    rw [applyAll_cons, ih _ m hlen, insFor_cons]
    by_cases hpm : p.1 = m
    · subst hpm
      rw [if_pos rfl, layerAt_set_self ls p.1 _ (h p (List.mem_cons_self p ins)),
        applyLayer_cons]
    · rw [if_neg hpm, layerAt_set_ne ls p.1 m _ hpm]

theorem totalLines_set_pyInsert (ls : List (List Line)) :
    ∀ (l : ℕ), l < ls.length → ∀ (n : ℕ) (c : Line),
      totalLines (ls.set l (pyInsert (layerAt ls l) n c)) = totalLines ls + 1 := by
  induction ls with
  | nil => intro l h; cases h
  | cons a t ih =>
    intro l h n c
    cases l with
    | zero =>
      show totalLines (pyInsert a n c :: t) = totalLines (a :: t) + 1
      unfold totalLines
      rw [List.map_cons, List.map_cons, List.sum_cons, List.sum_cons, pyInsert_length]
      omega
    | succ l =>
      show totalLines (a :: t.set l (pyInsert (layerAt t l) n c)) = totalLines (a :: t) + 1
      unfold totalLines
      rw [List.map_cons, List.map_cons, List.sum_cons, List.sum_cons]
      have := ih l (by simpa using Nat.lt_of_succ_lt_succ h) n c
      unfold totalLines at this
      omega

theorem applyAll_totalLines (ins : List (ℕ × ℕ × Line)) :
    ∀ (ls : List (List Line)), (∀ p ∈ ins, p.1 < ls.length) →
      totalLines (applyAll ls ins) = totalLines ls + ins.length := by
  induction ins with
  | nil => intro ls _; rfl
  | cons p ins ih =>
    intro ls h
    rw [applyAll_cons, ih _ (fun p' hp' => by
      rw [List.length_set]
      exact h p' (List.mem_cons_of_mem p hp')),
      totalLines_set_pyInsert ls p.1 (h p (List.mem_cons_self p ins)) p.2.1 p.2.2,
      List.length_cons]
    omega

theorem insFor_sorted (m : ℕ) (ins : List (ℕ × ℕ × Line))
    (h : ins.Pairwise insLE) :
    (insFor m ins).Pairwise (fun a b => b.1 ≤ a.1) := by
  unfold insFor
  refine List.Pairwise.filterMap _ ?_ h
  intro a a' haa' b hb b' hb'
  by_cases ha : a.1 = m
  · by_cases ha' : a'.1 = m
    · rw [if_pos ha] at hb
      rw [if_pos ha'] at hb'
      cases hb
      cases hb'
      rcases haa' with h1 | ⟨h1, h2⟩
      · omega
      · exact h2
    · rw [if_neg ha'] at hb'
      cases hb'
  · rw [if_neg ha] at hb
    cases hb

/-! ### Motion-stage congruence and the elapsed-time formula -/

theorem moveCalc_congr (s₁ s₂ : ScanState) (line : Line)
    (hx : s₁.current_x = s₂.current_x) (hy : s₁.current_y = s₂.current_y)
    (hz : s₁.current_z = s₂.current_z) (hrel : s₁.is_relative = s₂.is_relative) :
    moveCalc s₁ line = moveCalc s₂ line := by
  unfold moveCalc
  rw [hx, hy, hz, hrel]

theorem moveFeed_congr (s₁ s₂ : ScanState) (line : Line)
    (hf : s₁.current_f = s₂.current_f) : moveFeed s₁ line = moveFeed s₂ line := by
  unfold moveFeed
  rw [hf]

theorem stepLine_total_time_formula (lead_time : ℚ) (fc : Line) (s : ScanState)
    (li ni : ℕ) (line : Line) :
    (stepLine lead_time fc s li ni line).total_time =
      if isMove line = true then
        (if 0 < (moveCalc (modalStep s line) line).1 ∧
            0 < moveFeed (modalStep s line) line then
          s.total_time +
            (moveCalc (modalStep s line) line).1 / moveFeed (modalStep s line) line * 60
        else s.total_time)
      else s.total_time := by
  unfold stepLine
  rw [pruneStep_total_time]
  rcases hm : isMove line with _ | _
  · rw [motionStep_total_time_of_not_move _ _ _ _ hm, triggerStep_total_time,
      modalStep_total_time]
    simp [hm]
  · rw [motionStep_total_time_of_move _ _ _ _ hm]
    have hmf := triggerStep_motion_fields lead_time fc (modalStep s line) li ni line
    rw [moveCalc_congr (triggerStep lead_time fc (modalStep s line) li ni line)
        (modalStep s line) line hmf.1 hmf.2.1 hmf.2.2.1 hmf.2.2.2.2,
      moveFeed_congr (triggerStep lead_time fc (modalStep s line) li ni line)
        (modalStep s line) line hmf.2.2.2.1,
      triggerStep_total_time, modalStep_total_time]
    simp [hm]

/-- C6: `elapsed_time` (`total_time`) is monotonically non-decreasing across
the entire scan: each line step, each layer scan from any intermediate
state, and the whole-document scan can only increase `total_time`, because
every motion command adds a non-negative (indeed positive, when added at
all) time delta.  Applying the second and third components at intermediate
states yields the claim for every pair of earlier/later lines. -/
theorem claim_C6_time_monotone :
    (∀ (lead_time : ℚ) (fc : Line) (s : ScanState) (li ni : ℕ) (line : Line),
      s.total_time ≤ (stepLine lead_time fc s li ni line).total_time) ∧
    (∀ (lead_time : ℚ) (fc : Line) (li i : ℕ) (s : ScanState) (lines : List Line),
      s.total_time ≤ (scanLines lead_time fc li s i lines).total_time) ∧
    (∀ (lead_time : ℚ) (fc : Line) (k : ℕ) (s : ScanState) (doc : List (List Line)),
      s.total_time ≤ (scanLayers lead_time fc s k doc).total_time) :=
  ⟨stepLine_total_time_le,
    fun lead_time fc li i s lines => scanLines_total_time_le lead_time fc li lines i s,
    fun lead_time fc k s doc => scanLayers_total_time_le lead_time fc doc k s⟩

/-- C7: the core is total (the embedding is a total function by
construction) and the elapsed-time delta of every line is governed exactly
by the guard `dist > 0 and current_f > 0`: the time advances by
`dist / feedrate * 60` only when both the displacement and the (updated)
feedrate are positive — in particular division only ever happens with a
positive divisor — and whenever the displacement is zero or the feedrate is
zero or negative the delta is exactly zero. -/
theorem claim_C7_total_no_div_by_zero :
    ∀ (lead_time : ℚ) (fc : Line) (s : ScanState) (li ni : ℕ) (line : Line),
      ((stepLine lead_time fc s li ni line).total_time =
        if isMove line = true then
          (if 0 < (moveCalc (modalStep s line) line).1 ∧
              0 < moveFeed (modalStep s line) line then
            s.total_time +
              (moveCalc (modalStep s line) line).1 / moveFeed (modalStep s line) line * 60
          else s.total_time)
        else s.total_time) ∧
      (isMove line = true →
        ((moveCalc (modalStep s line) line).1 = 0 ∨
          moveFeed (modalStep s line) line ≤ 0) →
        (stepLine lead_time fc s li ni line).total_time = s.total_time) := by
  intro lead_time fc s li ni line
  refine ⟨stepLine_total_time_formula lead_time fc s li ni line, ?_⟩
  intro hm hz
  rw [stepLine_total_time_formula lead_time fc s li ni line, if_pos hm, if_neg ?_]
  rintro ⟨hd, hf⟩
  rcases hz with hz | hz
  · rw [hz] at hd
    exact lt_irrefl 0 hd
  · exact absurd hf (not_lt.mpr hz)

/-- C10: on a line that carries both the trigger marker and a move opcode,
the trigger is resolved first, from the history window and `total_time` as
they were before the line's own sample is pushed and before its move time
is added; the line still pushes its history sample (timestamped with the
pre-move `total_time`, subject to the post-move pruning) and still advances
`total_time` by its own move delta. -/
theorem claim_C10_trigger_resolved_before_motion :
    ∀ (lead_time : ℚ) (fc : Line) (s : ScanState) (li ni : ℕ) (line : Line),
      isTrigger line = true → isMove line = true →
      ((stepLine lead_time fc s li ni line).insertions =
        s.insertions ++
          (match resolvePos s.history (s.total_time - lead_time) li ni with
            | some p => [(p.1, p.2, fc)]
            | none => [])) ∧
      ((stepLine lead_time fc s li ni line).history =
        (s.history ++ [(s.total_time, li, ni)]).dropWhile
          (fun e => decide (e.1 < (stepLine lead_time fc s li ni line).total_time -
            lead_time * 2))) ∧
      ((stepLine lead_time fc s li ni line).total_time =
        if 0 < (moveCalc (modalStep s line) line).1 ∧
            0 < moveFeed (modalStep s line) line then
          s.total_time +
            (moveCalc (modalStep s line) line).1 / moveFeed (modalStep s line) line * 60
        else s.total_time) := by
  intro lead_time fc s li ni line ht hm
  refine ⟨?_, ?_, ?_⟩
  · rw [stepLine_insertions_eq, if_pos ht]
  · conv_lhs => rw [show stepLine lead_time fc s li ni line = pruneStep lead_time
      (motionStep (triggerStep lead_time fc (modalStep s line) li ni line) li ni line)
      from rfl]
    rw [pruneStep_history, motionStep_history_of_move _ _ _ _ hm, triggerStep_history,
      modalStep_history, triggerStep_total_time, modalStep_total_time]
    rfl
  · rw [stepLine_total_time_formula lead_time fc s li ni line, if_pos hm]

/-- C1: trigger resolution with a non-empty window follows the three-case
policy.  (i) The sortedness the policy relies on is an invariant of the
scan: from any state whose window is timestamp-sorted and bounded by
`total_time` (e.g. the initial state), every reachable state's window is
too.  (ii) On any timestamp-sorted window the source's boundary checks and
backward scan compute exactly the specification's three cases, the middle
case giving the first sample whose timestamp strictly exceeds
`target_time`.  (iii) On a trigger line with a non-empty window, exactly
the resolved position is appended to the pending insertions. -/
theorem claim_C1_resolution_policy :
    (∀ (lead_time : ℚ) (fc : Line) (k : ℕ) (s : ScanState) (doc : List (List Line)),
      HistInv s → HistInv (scanLayers lead_time fc s k doc)) ∧
    (∀ (h : List (ℚ × ℕ × ℕ)) (t : ℚ) (li ni : ℕ),
      h.Pairwise (fun a b => a.1 ≤ b.1) →
      resolvePos h t li ni = specResolve h t li ni) ∧
    (∀ (lead_time : ℚ) (fc : Line) (s : ScanState) (li ni : ℕ) (line : Line),
      isTrigger line = true → s.history ≠ [] →
      ∃ p, resolvePos s.history (s.total_time - lead_time) li ni = some p ∧
        (stepLine lead_time fc s li ni line).insertions =
          s.insertions ++ [(p.1, p.2, fc)]) := by
  refine ⟨?_, ?_, ?_⟩
  · intro lead_time fc k s doc h
    exact scanLayers_HistInv lead_time fc doc k s h
  · intro h t li ni hp
    exact resolvePos_eq_specResolve h t li ni hp
  · intro lead_time fc s li ni line ht hh
    obtain ⟨h0, rest, hcons⟩ := List.exists_cons_of_ne_nil hh
    have hsome : (resolvePos s.history (s.total_time - lead_time) li ni).isSome = true := by
      rw [hcons]
      exact resolvePos_cons_isSome h0 rest (s.total_time - lead_time) li ni
    obtain ⟨p, hp⟩ := Option.isSome_iff_exists.mp hsome
    refine ⟨p, hp, ?_⟩
    rw [stepLine_insertions_eq, if_pos ht, hp]

/-- C3 (amended): a trigger marker encountered while the history window is
empty records **no** insertion at all — the whole resolution block is
guarded by `len(history) > 0` with no fallback — so the pending-insertion
list is left unchanged and no fan command is emitted for that trigger. -/
theorem claim_C3_amended_empty_window_skips :
    ∀ (lead_time : ℚ) (fc : Line) (s : ScanState) (li ni : ℕ) (line : Line),
      s.history = [] →
      (stepLine lead_time fc s li ni line).insertions = s.insertions := by
  intro lead_time fc s li ni line hh
  rw [stepLine_insertions_eq, hh]
  simp [resolvePos]

/-- C3 (counterexample): on the one-line document whose only line is the
trigger marker, the code returns the document unchanged; the claimed
behaviour — the fan command landing immediately before the marker line —
does not occur. -/
theorem claim_C3_counterexample :
    execute 1 100 [[";BRIDGE".toList]] = [[";BRIDGE".toList]] ∧
      execute 1 100 [[";BRIDGE".toList]] ≠
        [[theFanCmd 1 100, ";BRIDGE".toList]] := by
  with_unfolding_all decide

/-- C3 (witness for the amended claim): at the initial state (empty
window), scanning a trigger line records nothing. -/
theorem claim_C3_witness :
    initState.history = [] ∧
      (stepLine 1 (theFanCmd 1 100) initState 0 0 (";BRIDGE".toList)).insertions =
        initState.insertions :=
  ⟨rfl, claim_C3_amended_empty_window_skips 1 (theFanCmd 1 100) initState 0 0
    (";BRIDGE".toList) rfl⟩

/-- C4 (amended): the number of lines the transformation adds equals the
number of trigger-marker lines encountered while the history window was
non-empty (`triggeredLayers`); trigger lines scanned with an empty window
contribute no insertion. -/
theorem claim_C4_amended_insertion_count :
    ∀ (lead_time : ℚ) (target_fan_speed : ℤ) (data : List (List Line)),
      totalLines (execute lead_time target_fan_speed data) =
        totalLines data +
          triggeredLayers lead_time (theFanCmd lead_time target_fan_speed)
            initState 0 data := by
  intro lead_time speed data
  have hperm := List.perm_insertionSort insLE (docInsertions lead_time speed data)
  have hval : ∀ p ∈ List.insertionSort insLE (docInsertions lead_time speed data),
      p.1 < data.length := by
    intro p hp
    have hp' := hperm.mem_iff.mp hp
    unfold docInsertions at hp'
    exact ((scan_StInv data lead_time (theFanCmd lead_time speed)).2 p hp').1
  show totalLines (applyAll data
    (List.insertionSort insLE (docInsertions lead_time speed data))) = _
  rw [applyAll_totalLines _ data hval, hperm.length_eq]
  unfold docInsertions
  rw [scanLayers_insertions_length]
  show totalLines data + (([] : List (ℕ × ℕ × Line)).length + _) = _
  rw [List.length_nil, Nat.zero_add]

/-- C4 (counterexample): a document whose first line is the trigger marker
(empty window at that point) has one trigger line but the transformation
inserts zero lines, refuting "inserted lines = trigger-marker lines". -/
theorem claim_C4_counterexample :
    triggerLineCount [[";BRIDGE".toList, "G1 X5".toList]] = 1 ∧
      totalLines (execute 1 100 [[";BRIDGE".toList, "G1 X5".toList]]) =
        totalLines [[";BRIDGE".toList, "G1 X5".toList]] := by
  with_unfolding_all decide

/-- C9: applying the recorded insertions never corrupts the document.  The
output has the same number of layers; every original layer is a sublist of
the corresponding output layer (all original lines survive, in their
original relative order, byte-for-byte); and each output layer is exactly
the `specMerge` interleaving of the original layer with that layer's
recorded insertions — every inserted line sits immediately before the line
that originally occupied its recorded index, which is what applying in
descending `(layer_index, line_index)` order guarantees. -/
theorem claim_C9_no_index_corruption :
    ∀ (lead_time : ℚ) (target_fan_speed : ℤ) (data : List (List Line)),
      (execute lead_time target_fan_speed data).length = data.length ∧
      (∀ m, (layerAt data m).Sublist
        (layerAt (execute lead_time target_fan_speed data) m)) ∧
      (∀ m, layerAt (execute lead_time target_fan_speed data) m =
        specMerge (layerAt data m)
          (insFor m (List.insertionSort insLE
            (docInsertions lead_time target_fan_speed data)))) := by
  intro lead_time speed data
  have hperm := List.perm_insertionSort insLE (docInsertions lead_time speed data)
  have hstinv := scan_StInv data lead_time (theFanCmd lead_time speed)
  have hval : ∀ p ∈ List.insertionSort insLE (docInsertions lead_time speed data),
      p.1 < data.length ∧ p.2.1 < (layerAt data p.1).length := by
    intro p hp
    have hp' := hperm.mem_iff.mp hp
    unfold docInsertions at hp'
    exact hstinv.2 p hp'
  have hsorted : (List.insertionSort insLE (docInsertions lead_time speed data)).Pairwise insLE :=
    List.sorted_insertionSort insLE (docInsertions lead_time speed data)
  have hprj : ∀ m, layerAt (execute lead_time speed data) m =
      applyLayer (layerAt data m)
        (insFor m (List.insertionSort insLE (docInsertions lead_time speed data))) := by
    intro m
    exact applyAll_prj _ data m (fun p hp => (hval p hp).1)
  have hbound : ∀ m, ∀ q ∈ insFor m (List.insertionSort insLE
      (docInsertions lead_time speed data)), q.1 ≤ (layerAt data m).length := by
    intro m q hq
    unfold insFor at hq
    rw [List.mem_filterMap] at hq
    obtain ⟨p, hp, hpq⟩ := hq
    by_cases hpm : p.1 = m
    · rw [if_pos hpm] at hpq
      cases hpq
      have := (hval p hp).2
      rw [hpm] at this
      exact le_of_lt this
    · rw [if_neg hpm] at hpq
      cases hpq
  have hspec : ∀ m, applyLayer (layerAt data m)
      (insFor m (List.insertionSort insLE (docInsertions lead_time speed data))) =
      specMerge (layerAt data m)
        (insFor m (List.insertionSort insLE (docInsertions lead_time speed data))) := by
    intro m
    exact applyLayer_eq_specMerge _ _ (insFor_sorted m _ hsorted) (hbound m)
  refine ⟨applyAll_length _ data, ?_, ?_⟩
  · intro m
    rw [hprj m, hspec m]
    exact specMerge_sublist _ _
  · intro m
    rw [hprj m]
    exact hspec m

/-- C2 (counterexample): on the spec's worked example the code does *not*
insert the fan command immediately before `"G1 X20"`: the trigger at
simulated time `T = 2 s` computes `target_time = 1.0`, which **equals** the
most recent sample's timestamp, so the `target_time >= tail` boundary case
fires and the insertion collapses to the trigger's own position instead. -/
theorem claim_C2_counterexample :
    execute 1 100 [["G90".toList, "G1 X10 F600".toList, "G1 X20".toList,
        ";BRIDGE".toList, "G1 X30".toList]] ≠
      [["G90".toList, "G1 X10 F600".toList, theFanCmd 1 100, "G1 X20".toList,
        ";BRIDGE".toList, "G1 X30".toList]] := by
  with_unfolding_all decide

/-- C2 (amended): on the document
`["G90", "G1 X10 F600", "G1 X20", ";BRIDGE", "G1 X30"]` with
`lead_time = 1.0` and `target_fan_level = 100`, the fan command is inserted
immediately before the `";BRIDGE"` line (immediately after `"G1 X20"`),
because `target_time = 1.0` is `>=` the tail sample's timestamp `1.0`. -/
theorem claim_C2_amended_example :
    execute 1 100 [["G90".toList, "G1 X10 F600".toList, "G1 X20".toList,
        ";BRIDGE".toList, "G1 X30".toList]] =
      [["G90".toList, "G1 X10 F600".toList, "G1 X20".toList, theFanCmd 1 100,
        ";BRIDGE".toList, "G1 X30".toList]] := by
  with_unfolding_all decide

/-- C5 (counterexample): the code converts the fan level with `int(...)`
(truncation), not `round(...)`: at `target_fan_level = 50` it produces PWM
`127`, while `round(50 / 100 * 255) = 128`. -/
theorem claim_C5_counterexample :
    fan_pwm 50 = 127 ∧ fan_pwm 50 ≠ round ((50 : ℚ) / 100 * 255) := by
  with_unfolding_all decide

/-- C5 (amended): for every non-negative integer fan level the conversion
is truncation, i.e. `fan_pwm level = ⌊level / 100 * 255⌋`; in particular
`target_fan_level = 50` yields `127`, not `128`. -/
theorem claim_C5_amended_truncation :
    ∀ (level : ℤ), 0 ≤ level → fan_pwm level = ⌊(level : ℚ) / 100 * 255⌋ := by
  intro level h
  unfold fan_pwm ratTrunc
  rw [if_pos]
  exact mul_nonneg (div_nonneg (by exact_mod_cast h) (by norm_num)) (by norm_num)

/-- C5 (witness for the amended claim): instantiated at level 50. -/
theorem claim_C5_witness :
    (0 : ℤ) ≤ 50 ∧ fan_pwm 50 = ⌊((50 : ℤ) : ℚ) / 100 * 255⌋ :=
  ⟨by decide, claim_C5_amended_truncation 50 (by decide)⟩

/-- C8: parameter extraction is tolerant.  A key absent from the line gives
no parameter; a present key yields exactly the parse of the maximal
substring following it up to the next space, `';'`, or end of line; an
unparseable substring yields no parameter rather than an error; and a move
simulated in absolute mode with an absent (or unparseable) `X` keeps the
prior x-coordinate. -/
theorem claim_C8_tolerant_parsing :
    ∀ (line : Line) (key : Char) (s : ScanState),
      (key ∉ line → get_value line key = none) ∧
      (key ∈ line → get_value line key = pyFloat (valueChunk line key)) ∧
      (pyFloat (valueChunk line key) = none → get_value line key = none) ∧
      (s.is_relative = false → get_value line 'X' = none →
        (moveCalc s line).2.1 = s.current_x) := by
  intro line key s
  refine ⟨?_, ?_, ?_, ?_⟩
  · intro h
    unfold get_value
    rw [if_neg h]
  · intro h
    unfold get_value
    rw [if_pos h]
  · intro h
    unfold get_value
    split
    · exact h
    · rfl
  · intro hrel hx
    simp [moveCalc, hrel, hx]

/-- C7 (witness): a bare `G1` line moves nowhere (zero displacement), so at
the initial state its elapsed-time delta is exactly zero. -/
theorem claim_C7_witness :
    isMove ("G1".toList) = true ∧
      (moveCalc (modalStep initState ("G1".toList)) ("G1".toList)).1 = 0 ∧
      (stepLine 1 [] initState 0 0 ("G1".toList)).total_time = initState.total_time :=
  ⟨by decide, by with_unfolding_all decide,
    (claim_C7_total_no_div_by_zero 1 [] initState 0 0 ("G1".toList)).2 (by decide)
      (Or.inl (by with_unfolding_all decide))⟩

/-- C10 (witness): a line carrying both `;BRIDGE` and `G1`, scanned at the
initial state, resolves its trigger against the pre-move window. -/
theorem claim_C10_witness :
    isTrigger (";BRIDGE G1".toList) = true ∧ isMove (";BRIDGE G1".toList) = true ∧
      (stepLine 1 [] initState 0 0 (";BRIDGE G1".toList)).insertions =
        initState.insertions ++
          (match resolvePos initState.history (initState.total_time - 1) 0 0 with
            | some p => [(p.1, p.2, ([] : Line))]
            | none => []) :=
  ⟨by decide, by decide,
    (claim_C10_trigger_resolved_before_motion 1 [] initState 0 0 (";BRIDGE G1".toList)
      (by decide) (by decide)).1⟩

/-- C1 (witness): the three components instantiated — the invariant holds
after scanning a one-move document from the initial state; the resolver
matches the policy on a concrete sorted two-sample window; and a trigger
with a concrete non-empty window appends exactly the resolved position. -/
theorem claim_C1_witness :
    HistInv (scanLayers 1 [] initState 0 [["G1 X10 F600".toList]]) ∧
      resolvePos [((0 : ℚ), 0, 1), ((1 : ℚ), 0, 2)] 1 0 3 =
        specResolve [((0 : ℚ), 0, 1), ((1 : ℚ), 0, 2)] 1 0 3 ∧
      ∃ p, resolvePos [((0 : ℚ), 0, 0)]
          (({ initState with history := [((0 : ℚ), 0, 0)] }).total_time - 1) 0 1 =
          some p ∧
        (stepLine 1 [] { initState with history := [((0 : ℚ), 0, 0)] } 0 1
          (";BRIDGE".toList)).insertions =
          ({ initState with history := [((0 : ℚ), 0, 0)] }).insertions ++
            [(p.1, p.2, ([] : Line))] := by
  refine ⟨?_, ?_, ?_⟩
  · exact claim_C1_resolution_policy.1 1 [] 0 initState [["G1 X10 F600".toList]]
      ⟨List.Pairwise.nil, fun e he => absurd he (List.not_mem_nil e)⟩
  · exact claim_C1_resolution_policy.2.1 _ 1 0 3 (by with_unfolding_all decide)
  · exact claim_C1_resolution_policy.2.2 1 []
      { initState with history := [((0 : ℚ), 0, 0)] } 0 1 (";BRIDGE".toList)
      (by decide) (by decide)

/-- C8 (witness): `X` present with an unparseable value (`X1c`) yields no
parameter; `X` absent yields no parameter; and in absolute mode the move
keeps the prior x-coordinate in both situations. -/
theorem claim_C8_witness :
    ('X' ∈ "G1 X1c".toList) ∧
      get_value ("G1 X1c".toList) 'X' = pyFloat (valueChunk ("G1 X1c".toList) 'X') ∧
      get_value ("G1 X1c".toList) 'X' = none ∧
      get_value ("G1 Y5".toList) 'X' = none ∧
      (moveCalc initState ("G1 X1c".toList)).2.1 = initState.current_x :=
  ⟨by decide,
    (claim_C8_tolerant_parsing ("G1 X1c".toList) 'X' initState).2.1 (by decide),
    (claim_C8_tolerant_parsing ("G1 X1c".toList) 'X' initState).2.2.1
      (by with_unfolding_all decide),
    (claim_C8_tolerant_parsing ("G1 Y5".toList) 'X' initState).1 (by decide),
    (claim_C8_tolerant_parsing ("G1 X1c".toList) 'X' initState).2.2.2 rfl
      (by with_unfolding_all decide)⟩
